import Mathlib

/-!
Verification development for the symbolic-link path resolver
(src/main.py).  The resolver's path arithmetic is the subset of
CPython's posixpath used by the code: split on the separator,
normpath, join, dirname, abspath.  Paths are modelled as strings
(lists of characters); the filesystem is an explicit record of the
three primitives the code calls (islink, readlink, exists), so the
resolver becomes a pure function of the filesystem state.
-/

namespace SymlinkResolver

/-- Python str.split on the separator character, over char lists:
splitSlash of an empty list is one empty segment, and every separator
opens a new segment. -/
def splitSlash : List Char → List (List Char)
  | [] => [[]]
  | '/' :: cs => [] :: splitSlash cs
  | c :: cs =>
    match splitSlash cs with
    | s :: ss => (c :: s) :: ss
    | [] => [[c]]

/-- Python sep.join over char-list segments. -/
def joinSlash : List (List Char) → List Char
  | [] => []
  | [s] => s
  | s :: ss => s ++ '/' :: joinSlash ss

/-- The component-filtering loop of posixpath.normpath: empty and dot
components are dropped, dotdot pops the accumulator except at an
absolute root, everything else is appended. -/
def processComps (slashes : Nat) : List (List Char) → List (List Char) → List (List Char)
  | acc, [] => acc
  | acc, comp :: cs =>
    if comp = [] ∨ comp = ['.'] then processComps slashes acc cs
    else if comp ≠ ['.', '.'] ∨ (slashes = 0 ∧ acc = []) ∨ acc.getLast? = some ['.', '.'] then
      processComps slashes (acc ++ [comp]) cs
    else if acc ≠ [] then processComps slashes acc.dropLast cs
    else processComps slashes acc cs

/-- posixpath.isabs over char lists. -/
def isabsL (p : List Char) : Bool := p.take 1 = ['/']

/-- The initial-slash count recorded by posixpath.normpath: zero for a
relative path, two for the POSIX-special exactly-double leading slash,
one otherwise. -/
def normSlashes (p : List Char) : Nat :=
  if p.take 1 = ['/'] then
    if p.take 2 = ['/', '/'] ∧ p.take 3 ≠ ['/', '/', '/'] then 2 else 1
  else 0

/-- posixpath.normpath over char lists, following the CPython source:
record one or two initial slashes, split, filter components, rejoin,
and fall back to a dot for the empty result. -/
def normpathL (p : List Char) : List Char :=
  if p = [] then ['.']
  else if List.replicate (normSlashes p) '/' ++
      joinSlash (processComps (normSlashes p) [] (splitSlash p)) = [] then ['.']
  else List.replicate (normSlashes p) '/' ++
    joinSlash (processComps (normSlashes p) [] (splitSlash p))

/-- posixpath.join restricted to two arguments, over char lists. -/
def pjoinL (a b : List Char) : List Char :=
  if isabsL b then b
  else if a = [] ∨ a.getLast? = some '/' then a ++ b
  else a ++ '/' :: b

/-- posixpath.dirname over char lists: the prefix up to and including
the last separator, with trailing separators stripped unless the
prefix is all separators. -/
def dirnameL (p : List Char) : List Char :=
  let head := (p.reverse.dropWhile (fun c => c ≠ '/')).reverse
  if head ≠ [] ∧ head.any (fun c => c ≠ '/') then
    (head.reverse.dropWhile (fun c => c = '/')).reverse
  else head

/-- os.path.abspath with the working directory passed explicitly:
join onto the cwd when relative, then normalize. -/
def abspathL (cwd p : List Char) : List Char :=
  if isabsL p then normpathL p else normpathL (pjoinL cwd p)

/-- String-level isabs. -/
def isabs (p : String) : Bool := isabsL p.toList

/-- String-level normpath. -/
def normpath (p : String) : String := (normpathL p.toList).asString

/-- String-level two-argument join. -/
def pjoin (a b : String) : String := (pjoinL a.toList b.toList).asString

/-- String-level dirname. -/
def dirname (p : String) : String := (dirnameL p.toList).asString

/-- String-level abspath with explicit working directory. -/
def abspath (cwd p : String) : String := (abspathL cwd.toList p.toList).asString

/-- The filesystem state seen by the resolver: the three primitives the
code calls.  readlink returns the raw target text, or raises OSError,
modelled as the error message. -/
structure FS where
  islink : String → Bool
  readlink : String → Except String String
  pathExists : String → Bool

/-- The result dict built by resolve_symlink (and, for the status
"error", by its callers' exception handlers): keys link, status,
resolved, chain, and the optional error detail.  The wrapper record
for a raised exception stores None under resolved, hence the Option. -/
structure Resolution where
  link : String
  status : String
  resolved : Option String
  chain : List String
  error : Option String
deriving DecidableEq, Repr

/-- Lines 48-53 of src/main.py: a relative target text is joined to
the directory containing the current link and normalized; an absolute
target text goes through abspath directly. -/
def nextPath (cwd current target : String) : String :=
  if ¬ isabs target then
    abspath cwd (normpath (pjoin (dirname current) target))
  else
    abspath cwd target

/-- The for-loop of resolve_symlink (lines 41-74 of src/main.py), with
the remaining iteration budget as fuel.  Each iteration reads the
current link, normalizes the target, appends it to the visited list,
then checks for a repeat, a further link, and existence; exhausting
the budget yields the maxdepth record. -/
def followLoop (fs : FS) (cwd link : String) : Nat → String → List String → Resolution
  | 0, current, visited =>
    { link := link, status := "maxdepth", resolved := some current
      chain := visited, error := none }
  | n + 1, current, visited =>
    match fs.readlink current with
    | .error e =>
      { link := link, status := "broken", resolved := some current
        chain := visited, error := some e }
    | .ok target =>
      let np := nextPath cwd current target
      if np ∈ visited then
        { link := link, status := "loop", resolved := some np
          chain := visited ++ [np], error := none }
      else if fs.islink np then
        followLoop fs cwd link n np (visited ++ [np])
      else if fs.pathExists np then
        { link := link, status := "ok", resolved := some (abspath cwd np)
          chain := visited ++ [np], error := none }
      else
        { link := link, status := "broken", resolved := some np
          chain := visited ++ [np], error := none }

/-- The safety cap MAX_FOLLOW of src/main.py. -/
def MAX_FOLLOW : Nat := 200

/-- resolve_symlink of src/main.py: take the absolute path of the
start, raise ValueError (modelled as Except.error with the message the
code formats) when it is not a symbolic link, and otherwise run the
following loop with an empty visited list. -/
def resolve_symlink (fs : FS) (cwd start_path : String) (max_follow : Nat) :
    Except String Resolution :=
  let link := abspath cwd start_path
  if fs.islink link then .ok (followLoop fs cwd link max_follow link [])
  else .error (link ++ " is not a symbolic link")

/-- The try/except wrapper the callers of resolve_symlink use
(lines 98-101 and 142-146 of src/main.py): a raised exception becomes
a record with status "error", resolved None and an empty chain. -/
def resolve_checked (fs : FS) (cwd start_path : String) (max_follow : Nat) : Resolution :=
  match resolve_symlink fs cwd start_path max_follow with
  | .ok r => r
  | .error e =>
    { link := abspath cwd start_path, status := "error", resolved := none
      chain := [], error := some e }

/-- Decidable equality of Except values, for evaluating the resolver
on concrete filesystems. -/
instance {e a : Type} [DecidableEq e] [DecidableEq a] : DecidableEq (Except e a) :=
  fun x y =>
    match x, y with
    | .ok u, .ok v => if h : u = v then .isTrue (by rw [h]) else .isFalse (by simp [h])
    | .error u, .error v => if h : u = v then .isTrue (by rw [h]) else .isFalse (by simp [h])
    | .ok _, .error _ => .isFalse (by simp)
    | .error _, .ok _ => .isFalse (by simp)

/-- Concrete filesystem with a direct two-cycle of links /a -> /b -> /a. -/
def fsTwoCycle : FS :=
  { islink := fun p => p == "/a" || p == "/b"
    readlink := fun p =>
      if p == "/a" then .ok "/b"
      else if p == "/b" then .ok "/a"
      else .error "EINVAL"
    pathExists := fun p => p == "/a" || p == "/b" }

/-- Concrete filesystem with one live single-hop link /a -> /t (where
/t is an existing regular entry) and one dangling link /d -> /missing. -/
def fsHop : FS :=
  { islink := fun p => p == "/a" || p == "/d"
    readlink := fun p =>
      if p == "/a" then .ok "/t"
      else if p == "/d" then .ok "/missing"
      else .error "EINVAL"
    pathExists := fun p => p == "/a" || p == "/d" || p == "/t" }

/-- Concrete filesystem whose link /a exists but whose readlink call
is refused. -/
def fsReadErr : FS :=
  { islink := fun p => p == "/a"
    readlink := fun _ => .error "Permission denied"
    pathExists := fun p => p == "/a" }

/-- Concrete filesystem with a cycle-free chain of two links
/l1 -> /l2 -> /t ending at an existing non-link entry /t. -/
def fsChain2 : FS :=
  { islink := fun p => p == "/l1" || p == "/l2"
    readlink := fun p =>
      if p == "/l1" then .ok "/l2"
      else if p == "/l2" then .ok "/t"
      else .error "EINVAL"
    pathExists := fun p => p == "/l1" || p == "/l2" || p == "/t" }

/-- A straight-line piece of the link graph: from the link cur, the
successive readlink texts pass through the links ls and the last read
yields the text t; every target text along the way is already an
absolute path in canonical form, so normalization leaves it alone. -/
inductive LinkChain (fs : FS) : String → List String → String → Prop
  | last (cur t : String) :
      fs.islink cur = true → fs.readlink cur = .ok t →
      isabs t = true → normpath t = t → LinkChain fs cur [] t
  | cons (cur l : String) (ls : List String) (t : String) :
      fs.islink cur = true → fs.readlink cur = .ok l →
      isabs l = true → normpath l = l →
      LinkChain fs l ls t → LinkChain fs cur (l :: ls) t

/-- A path component kept by the normpath filter on an absolute path:
nonempty, not a dot, not a dotdot, and free of separators. -/
def cleanComp (c : List Char) : Prop :=
  c ≠ [] ∧ c ≠ ['.'] ∧ c ≠ ['.', '.'] ∧ '/' ∉ c

/-- A path already in canonical form is returned unchanged by abspath:
it is absolute, so abspath only renormalizes it. -/
theorem abspath_good (cwd p : String) (h1 : isabs p = true) (h2 : normpath p = p) :
    abspath cwd p = p := by
  have hL : isabsL p.toList = true := h1
  unfold abspath abspathL
  rw [hL]
  exact h2

/-- An absolute target text bypasses the join with the containing
directory: the next path is just its abspath. -/
theorem nextPath_abs (cwd cur t : String) (h : isabs t = true) :
    nextPath cwd cur t = abspath cwd t := by
  simp [nextPath, h]

/-- A canonical absolute target text is the next path verbatim. -/
theorem nextPath_good (cwd cur t : String) (h1 : isabs t = true) (h2 : normpath t = t) :
    nextPath cwd cur t = t := by
  rw [nextPath_abs cwd cur t h1, abspath_good cwd t h1 h2]

/-- Unfolding the loop at an exhausted budget. -/
theorem followLoop_zero (fs : FS) (cwd link cur : String) (vis : List String) :
    followLoop fs cwd link 0 cur vis =
      { link := link, status := "maxdepth", resolved := some cur
        chain := vis, error := none } := rfl

/-- Unfolding one iteration whose readlink call fails. -/
theorem followLoop_err (fs : FS) (cwd link : String) (n : Nat) (cur : String)
    (vis : List String) (e : String) (h : fs.readlink cur = .error e) :
    followLoop fs cwd link (n + 1) cur vis =
      { link := link, status := "broken", resolved := some cur
        chain := vis, error := some e } := by
  simp [followLoop, h]

/-- Unfolding one iteration that detects a repeat of the next path. -/
theorem followLoop_mem (fs : FS) (cwd link : String) (n : Nat) (cur : String)
    (vis : List String) (t : String) (h : fs.readlink cur = .ok t)
    (hm : nextPath cwd cur t ∈ vis) :
    followLoop fs cwd link (n + 1) cur vis =
      { link := link, status := "loop", resolved := some (nextPath cwd cur t)
        chain := vis ++ [nextPath cwd cur t], error := none } := by
  simp [followLoop, h, hm]

/-- Unfolding one iteration that moves to a further link. -/
theorem followLoop_cont (fs : FS) (cwd link : String) (n : Nat) (cur : String)
    (vis : List String) (t : String) (h : fs.readlink cur = .ok t)
    (hm : nextPath cwd cur t ∉ vis) (hl : fs.islink (nextPath cwd cur t) = true) :
    followLoop fs cwd link (n + 1) cur vis =
      followLoop fs cwd link n (nextPath cwd cur t) (vis ++ [nextPath cwd cur t]) := by
  simp [followLoop, h, hm, hl]

/-- Unfolding one iteration that reaches an existing non-link entry. -/
theorem followLoop_live (fs : FS) (cwd link : String) (n : Nat) (cur : String)
    (vis : List String) (t : String) (h : fs.readlink cur = .ok t)
    (hm : nextPath cwd cur t ∉ vis) (hl : fs.islink (nextPath cwd cur t) = false)
    (he : fs.pathExists (nextPath cwd cur t) = true) :
    followLoop fs cwd link (n + 1) cur vis =
      { link := link, status := "ok", resolved := some (abspath cwd (nextPath cwd cur t))
        chain := vis ++ [nextPath cwd cur t], error := none } := by
  simp [followLoop, h, hm, hl, he]

/-- Unfolding one iteration that reaches a nonexistent non-link entry. -/
theorem followLoop_dangling (fs : FS) (cwd link : String) (n : Nat) (cur : String)
    (vis : List String) (t : String) (h : fs.readlink cur = .ok t)
    (hm : nextPath cwd cur t ∉ vis) (hl : fs.islink (nextPath cwd cur t) = false)
    (he : fs.pathExists (nextPath cwd cur t) = false) :
    followLoop fs cwd link (n + 1) cur vis =
      { link := link, status := "broken", resolved := some (nextPath cwd cur t)
        chain := vis ++ [nextPath cwd cur t], error := none } := by
  simp [followLoop, h, hm, hl, he]

/-- Raising the iteration budget cannot change a result that did not
exhaust the budget: the loop is deterministic and every other exit is
taken at the same iteration regardless of the remaining fuel. -/
theorem followLoop_mono (fs : FS) (cwd link : String) :
    ∀ n n' cur vis, n ≤ n' →
      (followLoop fs cwd link n cur vis).status ≠ "maxdepth" →
      followLoop fs cwd link n' cur vis = followLoop fs cwd link n cur vis := by
  intro n
  induction n with
  | zero =>
    intro n' cur vis _ hst
    exact absurd rfl hst
  | succ n ih =>
    intro n' cur vis hle hst
    obtain ⟨m, rfl⟩ : ∃ m, n' = m + 1 := ⟨n' - 1, by omega⟩
    have hnm : n ≤ m := by omega
    cases hrd : fs.readlink cur with
    | error e =>
      rw [followLoop_err fs cwd link n cur vis e hrd,
        followLoop_err fs cwd link m cur vis e hrd]
    | ok t =>
      by_cases hm : nextPath cwd cur t ∈ vis
      · rw [followLoop_mem fs cwd link n cur vis t hrd hm,
          followLoop_mem fs cwd link m cur vis t hrd hm]
      · by_cases hl : fs.islink (nextPath cwd cur t) = true
        · rw [followLoop_cont fs cwd link n cur vis t hrd hm hl] at hst ⊢
          rw [followLoop_cont fs cwd link m cur vis t hrd hm hl]
          exact ih m _ _ hnm hst
        · replace hl : fs.islink (nextPath cwd cur t) = false := by
            simpa using hl
          by_cases he : fs.pathExists (nextPath cwd cur t) = true
          · rw [followLoop_live fs cwd link n cur vis t hrd hm hl he,
              followLoop_live fs cwd link m cur vis t hrd hm hl he]
          · replace he : fs.pathExists (nextPath cwd cur t) = false := by
              simpa using he
            rw [followLoop_dangling fs cwd link n cur vis t hrd hm hl he,
              followLoop_dangling fs cwd link m cur vis t hrd hm hl he]

/-- The chain of a loop run extends the visited list it started from,
by at most one entry per available iteration. -/
theorem followLoop_chain_ext (fs : FS) (cwd link : String) :
    ∀ n cur vis, ∃ tl, (followLoop fs cwd link n cur vis).chain = vis ++ tl ∧
      tl.length ≤ n := by
  intro n
  induction n with
  | zero =>
    intro cur vis
    exact ⟨[], by simp [followLoop_zero]⟩
  | succ n ih =>
    intro cur vis
    cases hrd : fs.readlink cur with
    | error e =>
      exact ⟨[], by simp [followLoop_err fs cwd link n cur vis e hrd]⟩
    | ok t =>
      by_cases hm : nextPath cwd cur t ∈ vis
      · exact ⟨[nextPath cwd cur t], by
          simp [followLoop_mem fs cwd link n cur vis t hrd hm]⟩
      · by_cases hl : fs.islink (nextPath cwd cur t) = true
        · obtain ⟨tl, htl, hlen⟩ := ih (nextPath cwd cur t) (vis ++ [nextPath cwd cur t])
          refine ⟨nextPath cwd cur t :: tl, ?_, by simpa using Nat.succ_le_succ hlen⟩
          rw [followLoop_cont fs cwd link n cur vis t hrd hm hl, htl]
          simp
        · replace hl : fs.islink (nextPath cwd cur t) = false := by simpa using hl
          by_cases he : fs.pathExists (nextPath cwd cur t) = true
          · exact ⟨[nextPath cwd cur t], by
              simp [followLoop_live fs cwd link n cur vis t hrd hm hl he]⟩
          · replace he : fs.pathExists (nextPath cwd cur t) = false := by simpa using he
            exact ⟨[nextPath cwd cur t], by
              simp [followLoop_dangling fs cwd link n cur vis t hrd hm hl he]⟩

/-- The link field of the result is the link the loop was started for. -/
theorem followLoop_link (fs : FS) (cwd link : String) :
    ∀ n cur vis, (followLoop fs cwd link n cur vis).link = link := by
  intro n
  induction n with
  | zero => intro cur vis; rfl
  | succ n ih =>
    intro cur vis
    cases hrd : fs.readlink cur with
    | error e => rw [followLoop_err fs cwd link n cur vis e hrd]
    | ok t =>
      by_cases hm : nextPath cwd cur t ∈ vis
      · rw [followLoop_mem fs cwd link n cur vis t hrd hm]
      · by_cases hl : fs.islink (nextPath cwd cur t) = true
        · rw [followLoop_cont fs cwd link n cur vis t hrd hm hl]; exact ih _ _
        · replace hl : fs.islink (nextPath cwd cur t) = false := by simpa using hl
          by_cases he : fs.pathExists (nextPath cwd cur t) = true
          · rw [followLoop_live fs cwd link n cur vis t hrd hm hl he]
          · replace he : fs.pathExists (nextPath cwd cur t) = false := by simpa using he
            rw [followLoop_dangling fs cwd link n cur vis t hrd hm hl he]

/-- Every exit of the loop stores a value under the resolved key; in
the loop exit it is the repeated path, which is also the last chain
entry, and in the maxdepth exit it is the path the walk stood on,
which is the last chain entry (or the starting link with an empty
chain). -/
theorem followLoop_resolved (fs : FS) (cwd link : String) :
    ∀ n cur vis, vis.getLast?.getD link = cur →
      (∃ v, (followLoop fs cwd link n cur vis).resolved = some v) ∧
      ((followLoop fs cwd link n cur vis).status = "loop" →
        (followLoop fs cwd link n cur vis).chain.getLast? =
          (followLoop fs cwd link n cur vis).resolved) ∧
      ((followLoop fs cwd link n cur vis).status = "maxdepth" →
        (followLoop fs cwd link n cur vis).resolved =
          some ((followLoop fs cwd link n cur vis).chain.getLast?.getD link)) := by
  intro n
  induction n with
  | zero =>
    intro cur vis hcur
    refine ⟨⟨cur, rfl⟩, ?_, ?_⟩
    · intro h
      exact absurd h (by simp [followLoop_zero])
    · intro _
      simp [followLoop_zero, hcur]
  | succ n ih =>
    intro cur vis hcur
    cases hrd : fs.readlink cur with
    | error e =>
      rw [followLoop_err fs cwd link n cur vis e hrd]
      refine ⟨⟨cur, rfl⟩, ?_, ?_⟩ <;> intro h <;> simp at h
    | ok t =>
      by_cases hm : nextPath cwd cur t ∈ vis
      · rw [followLoop_mem fs cwd link n cur vis t hrd hm]
        refine ⟨⟨nextPath cwd cur t, rfl⟩, ?_, ?_⟩
        · intro _
          simp
        · intro h
          simp at h
      · by_cases hl : fs.islink (nextPath cwd cur t) = true
        · rw [followLoop_cont fs cwd link n cur vis t hrd hm hl]
          refine ih (nextPath cwd cur t) (vis ++ [nextPath cwd cur t]) ?_
          simp
        · replace hl : fs.islink (nextPath cwd cur t) = false := by simpa using hl
          by_cases he : fs.pathExists (nextPath cwd cur t) = true
          · rw [followLoop_live fs cwd link n cur vis t hrd hm hl he]
            refine ⟨⟨abspath cwd (nextPath cwd cur t), rfl⟩, ?_, ?_⟩ <;>
              intro h <;> simp at h
          · replace he : fs.pathExists (nextPath cwd cur t) = false := by simpa using he
            rw [followLoop_dangling fs cwd link n cur vis t hrd hm hl he]
            refine ⟨⟨nextPath cwd cur t, rfl⟩, ?_, ?_⟩ <;> intro h <;> simp at h

/-- The head of a straight-line chain is a link. -/
theorem LinkChain.islink_head {fs : FS} {cur : String} {ls : List String} {t : String}
    (h : LinkChain fs cur ls t) : fs.islink cur = true := by
  cases h with
  | last _ _ h1 _ _ _ => exact h1
  | cons _ _ _ _ h1 _ _ _ _ => exact h1

/-- Running the loop along a duplicate-free straight-line chain with
enough budget reaches the final entry: with the chain's link count
within the budget, the loop ends at t, appending the future links and
then t to the visited list. -/
theorem followLoop_chain_live (fs : FS) (cwd link : String) :
    ∀ ls cur t vis, LinkChain fs cur ls t →
      fs.islink t = false → fs.pathExists t = true →
      (vis ++ ls ++ [t]).Nodup →
      ∀ n, ls.length + 1 ≤ n →
        followLoop fs cwd link n cur vis =
          { link := link, status := "ok", resolved := some t
            chain := vis ++ ls ++ [t], error := none } := by
  intro ls
  induction ls with
  | nil =>
    intro cur t vis hch ht hex hnd n hn
    obtain ⟨m, rfl⟩ : ∃ m, n = m + 1 := ⟨n - 1, by omega⟩
    cases hch with
    | last _ _ hl hrd habs hnp =>
      have hnext : nextPath cwd cur t = t := nextPath_good cwd cur t habs hnp
      have hm : nextPath cwd cur t ∉ vis := by
        rw [hnext]
        intro hmem
        have hnd' : (vis ++ [t]).Nodup := by simpa using hnd
        rcases List.nodup_append.mp hnd' with ⟨_, _, hdisj⟩
        exact hdisj hmem (by simp)
      rw [followLoop_live fs cwd link m cur vis t hrd hm (by rw [hnext]; exact ht)
        (by rw [hnext]; exact hex), hnext]
      have : abspath cwd t = t := abspath_good cwd t habs hnp
      simp [this]
  | cons l ls ih =>
    intro cur t vis hch ht hex hnd n hn
    obtain ⟨m, rfl⟩ : ∃ m, n = m + 1 := ⟨n - 1, by omega⟩
    cases hch with
    | cons _ _ _ _ hl hrd habs hnp hrest =>
      have hnext : nextPath cwd cur l = l := nextPath_good cwd cur l habs hnp
      have hm : nextPath cwd cur l ∉ vis := by
        rw [hnext]
        intro hmem
        rcases List.nodup_append.mp ((List.append_assoc vis (l :: ls) [t]) ▸ hnd)
          with ⟨_, _, hdisj⟩
        exact hdisj hmem (by simp)
      rw [followLoop_cont fs cwd link m cur vis l hrd hm
        (by rw [hnext]; exact hrest.islink_head), hnext]
      have hnd' : ((vis ++ [l]) ++ ls ++ [t]).Nodup := by
        have : (vis ++ [l]) ++ ls ++ [t] = vis ++ (l :: ls) ++ [t] := by simp
        rw [this]
        exact hnd
      have := ih l t (vis ++ [l]) hrest ht hex hnd' m (by simpa using hn)
      rw [this]
      simp

/-- Running the loop along a duplicate-free straight-line chain with a
budget no larger than the number of future links exhausts the budget:
the result status is maxdepth. -/
theorem followLoop_chain_maxdepth (fs : FS) (cwd link : String) :
    ∀ n ls cur t vis, LinkChain fs cur ls t →
      (vis ++ ls).Nodup → n ≤ ls.length →
      (followLoop fs cwd link n cur vis).status = "maxdepth" := by
  intro n
  induction n with
  | zero =>
    intro ls cur t vis _ _ _
    rw [followLoop_zero]
  | succ n ih =>
    intro ls cur t vis hch hnd hn
    match ls, hch with
    | l :: ls, LinkChain.cons _ _ _ _ hl hrd habs hnp hrest =>
      have hnext : nextPath cwd cur l = l := nextPath_good cwd cur l habs hnp
      have hm : nextPath cwd cur l ∉ vis := by
        rw [hnext]
        intro hmem
        rcases List.nodup_append.mp hnd with ⟨_, _, hdisj⟩
        exact hdisj hmem (by simp)
      rw [followLoop_cont fs cwd link n cur vis l hrd hm
        (by rw [hnext]; exact hrest.islink_head), hnext]
      refine ih ls l t (vis ++ [l]) hrest ?_ (by simpa using hn)
      have : vis ++ [l] ++ ls = vis ++ (l :: ls) := by simp
      rw [this]
      exact hnd

/-- Unfolding splitSlash at a leading separator. -/
theorem splitSlash_slash (cs : List Char) : splitSlash ('/' :: cs) = [] :: splitSlash cs := rfl

/-- Unfolding splitSlash at a non-separator head: the head character
joins the first segment of the remainder. -/
theorem splitSlash_cons (c : Char) (cs : List Char) (hc : c ≠ '/') (s : List Char)
    (ss : List (List Char)) (h : splitSlash cs = s :: ss) :
    splitSlash (c :: cs) = (c :: s) :: ss := by
  rw [splitSlash]
  · rw [h]
  · exact fun he => hc he

/-- splitSlash never produces the empty list of segments. -/
theorem splitSlash_ne_nil : ∀ l, splitSlash l ≠ [] := by
  intro l
  induction l with
  | nil => simp [splitSlash]
  | cons c cs ih =>
    by_cases hc : c = '/'
    · subst hc
      rw [splitSlash_slash]
      simp
    · obtain ⟨s, ss, h⟩ : ∃ s ss, splitSlash cs = s :: ss := by
        cases hcs : splitSlash cs with
        | nil => exact absurd hcs ih
        | cons s ss => exact ⟨s, ss, rfl⟩
      rw [splitSlash_cons c cs hc s ss h]
      simp

/-- Segments produced by splitSlash contain no separator. -/
theorem splitSlash_no_slash : ∀ l, ∀ s ∈ splitSlash l, '/' ∉ s := by
  intro l
  induction l with
  | nil =>
    intro s hs
    simp [splitSlash] at hs
    simp [hs]
  | cons c cs ih =>
    intro s hs
    by_cases hc : c = '/'
    · subst hc
      rw [splitSlash_slash] at hs
      rcases List.mem_cons.mp hs with rfl | hmem
      · simp
      · exact ih s hmem
    · obtain ⟨s0, ss0, h⟩ : ∃ s0 ss0, splitSlash cs = s0 :: ss0 := by
        cases hcs : splitSlash cs with
        | nil => exact absurd hcs (splitSlash_ne_nil cs)
        | cons s0 ss0 => exact ⟨s0, ss0, rfl⟩
      rw [splitSlash_cons c cs hc s0 ss0 h] at hs
      rcases List.mem_cons.mp hs with rfl | hmem
      · intro hmem2
        rcases List.mem_cons.mp hmem2 with heq | hmem3
        · exact hc heq.symm
        · exact ih s0 (h ▸ List.mem_cons_self s0 ss0) hmem3
      · exact ih s (by rw [h]; exact List.mem_cons_of_mem s0 hmem)

/-- A separator-free char list splits into itself as the only segment. -/
theorem splitSlash_single : ∀ s : List Char, '/' ∉ s → splitSlash s = [s] := by
  intro s
  induction s with
  | nil => intro _; rfl
  | cons c cs ih =>
    intro h
    have hc : c ≠ '/' := fun he => h (he ▸ List.mem_cons_self c cs)
    have hcs : '/' ∉ cs := fun hm => h (List.mem_cons_of_mem c hm)
    exact splitSlash_cons c cs hc cs [] (ih hcs)

/-- Splitting a separator-free segment glued with a separator onto a
remainder peels off that segment. -/
theorem splitSlash_sep : ∀ s m : List Char, '/' ∉ s →
    splitSlash (s ++ '/' :: m) = s :: splitSlash m := by
  intro s
  induction s with
  | nil =>
    intro m _
    simp [splitSlash_slash]
  | cons c cs ih =>
    intro m h
    have hc : c ≠ '/' := fun he => h (he ▸ List.mem_cons_self c cs)
    have hcs : '/' ∉ cs := fun hm => h (List.mem_cons_of_mem c hm)
    rw [List.cons_append]
    exact splitSlash_cons c (cs ++ '/' :: m) hc cs (splitSlash m) (ih m hcs)

/-- splitSlash inverts joinSlash on nonempty separator-free segments. -/
theorem splitSlash_join : ∀ segs : List (List Char), segs ≠ [] →
    (∀ s ∈ segs, '/' ∉ s) → splitSlash (joinSlash segs) = segs := by
  intro segs
  induction segs with
  | nil => intro h _; exact absurd rfl h
  | cons s rest ih =>
    intro _ hall
    cases rest with
    | nil => exact splitSlash_single s (hall s (List.mem_cons_self s []))
    | cons s2 rest2 =>
      rw [joinSlash, splitSlash_sep s (joinSlash (s2 :: rest2))
        (hall s (List.mem_cons_self s (s2 :: rest2)))]
      · rw [ih (by simp) (fun x hx => hall x (List.mem_cons_of_mem s hx))]
      · simp

/-- Splitting after a block of leading separators yields that many
empty segments. -/
theorem splitSlash_replicate : ∀ (k : Nat) (x : List Char),
    splitSlash (List.replicate k '/' ++ x) = List.replicate k [] ++ splitSlash x := by
  intro k
  induction k with
  | zero => intro x; simp
  | succ k ih =>
    intro x
    rw [List.replicate_succ, List.cons_append, splitSlash_slash, ih, List.replicate_succ,
      List.cons_append]

/-- An empty leading component is skipped by the normpath filter. -/
theorem processComps_skip (k : Nat) (acc : List (List Char)) (cs : List (List Char)) :
    processComps k acc ([] :: cs) = processComps k acc cs := by
  rw [processComps]
  simp

/-- On an absolute path the normpath filter only ever accumulates
clean components. -/
theorem processComps_inv (k : Nat) (hk : 1 ≤ k) :
    ∀ comps acc, (∀ c ∈ acc, cleanComp c) → (∀ c ∈ comps, '/' ∉ c) →
      ∀ c ∈ processComps k acc comps, cleanComp c := by
  intro comps
  induction comps with
  | nil =>
    intro acc hacc _ c hc
    rw [processComps] at hc
    exact hacc c hc
  | cons comp cs ih =>
    intro acc hacc hsl c hc
    rw [processComps] at hc
    split at hc
    · exact ih acc hacc (fun x hx => hsl x (List.mem_cons_of_mem comp hx)) c hc
    · rename_i hnd
      split at hc
      · rename_i hcond
        refine ih (acc ++ [comp]) ?_ (fun x hx => hsl x (List.mem_cons_of_mem comp hx)) c hc
        intro x hx
        rcases List.mem_append.mp hx with hx1 | hx2
        · exact hacc x hx1
        · have hx3 : x = comp := by simpa using hx2
          subst hx3
          push_neg at hnd
          rcases hcond with h1 | h2 | h3
          · exact ⟨hnd.1, hnd.2, h1, hsl x (List.mem_cons_self x cs)⟩
          · omega
          · have := hacc _ (List.mem_of_mem_getLast? h3)
            exact absurd rfl this.2.2.1
      · split at hc
        · refine ih acc.dropLast ?_ (fun x hx => hsl x (List.mem_cons_of_mem comp hx)) c hc
          exact fun x hx => hacc x (List.dropLast_subset acc hx)
        · exact ih acc hacc (fun x hx => hsl x (List.mem_cons_of_mem comp hx)) c hc

/-- Clean components pass through the normpath filter unchanged. -/
theorem processComps_clean (k : Nat) :
    ∀ comps acc, (∀ c ∈ comps, c ≠ [] ∧ c ≠ ['.'] ∧ c ≠ ['.', '.']) →
      processComps k acc comps = acc ++ comps := by
  intro comps
  induction comps with
  | nil => intro acc _; rw [processComps]; simp
  | cons comp cs ih =>
    intro acc hcl
    obtain ⟨h1, h2, h3⟩ := hcl comp (List.mem_cons_self comp cs)
    rw [processComps, if_neg (by simp [h1, h2]), if_pos (Or.inl h3),
      ih (acc ++ [comp]) (fun x hx => hcl x (List.mem_cons_of_mem comp hx))]
    simp

/-- Skipping a block of empty leading components. -/
theorem processComps_skip_replicate (k : Nat) (acc : List (List Char)) :
    ∀ j cs, processComps k acc (List.replicate j [] ++ cs) = processComps k acc cs := by
  intro j
  induction j with
  | zero => intro cs; simp
  | succ j ih =>
    intro cs
    rw [List.replicate_succ, List.cons_append, processComps_skip, ih]

/-- The normalization of a nonempty absolute path is a block of one or
two slashes followed by the join of clean components. -/
theorem normpathL_form (p : List Char) (h : isabsL p = true) :
    ∃ k nc, (k = 1 ∨ k = 2) ∧ (∀ c ∈ nc, cleanComp c) ∧
      normpathL p = List.replicate k '/' ++ joinSlash nc := by
  have h1 : p.take 1 = ['/'] := by simpa [isabsL] using h
  have hp : p ≠ [] := by intro he; rw [he] at h1; simp at h1
  have hk : normSlashes p = 1 ∨ normSlashes p = 2 := by
    unfold normSlashes
    rw [if_pos h1]
    by_cases h2 : p.take 2 = ['/', '/'] ∧ p.take 3 ≠ ['/', '/', '/']
    · rw [if_pos h2]; exact Or.inr rfl
    · rw [if_neg h2]; exact Or.inl rfl
  have hkpos : 1 ≤ normSlashes p := by rcases hk with h' | h' <;> omega
  have hres : List.replicate (normSlashes p) '/' ++
      joinSlash (processComps (normSlashes p) [] (splitSlash p)) ≠ [] := by
    obtain ⟨m, hm⟩ : ∃ m, normSlashes p = m + 1 := ⟨normSlashes p - 1, by omega⟩
    rw [hm, List.replicate_succ, List.cons_append]
    simp
  refine ⟨normSlashes p, processComps (normSlashes p) [] (splitSlash p),
    by rcases hk with h' | h' <;> simp [h'], ?_, ?_⟩
  · exact processComps_inv (normSlashes p) hkpos (splitSlash p) [] (by simp)
      (splitSlash_no_slash p)
  · unfold normpathL
    rw [if_neg hp, if_neg hres]

/-- The head structure of the join of a clean component list. -/
theorem joinSlash_clean_head (c : List Char) (rest : List (List Char)) (hc : c ≠ []) :
    ∃ ch tl, c = ch :: tl ∧
      ∃ tl2, joinSlash (c :: rest) = ch :: tl2 := by
  obtain ⟨ch, tl, rfl⟩ : ∃ ch tl, c = ch :: tl := by
    cases c with
    | nil => exact absurd rfl hc
    | cons ch tl => exact ⟨ch, tl, rfl⟩
  refine ⟨ch, tl, rfl, ?_⟩
  cases rest with
  | nil => exact ⟨tl, rfl⟩
  | cons r rest2 =>
    refine ⟨tl ++ '/' :: joinSlash (r :: rest2), ?_⟩
    rw [joinSlash]
    · rfl
    · simp

/-- A rendered canonical absolute path is a fixed point of normpath. -/
theorem normpathL_render (k : Nat) (hk : k = 1 ∨ k = 2) (nc : List (List Char))
    (hc : ∀ c ∈ nc, cleanComp c) :
    normpathL (List.replicate k '/' ++ joinSlash nc) =
      List.replicate k '/' ++ joinSlash nc := by
  cases nc with
  | nil =>
    rcases hk with rfl | rfl
    · decide
    · decide
  | cons c rest =>
    obtain ⟨hcne, _, _, hcsl⟩ := hc c (List.mem_cons_self c rest)
    obtain ⟨ch, tl, rfl, tl2, hjoin⟩ := joinSlash_clean_head c rest hcne
    have hch : ch ≠ '/' := fun he => hcsl (he ▸ List.mem_cons_self ch tl)
    have hq : List.replicate k '/' ++ joinSlash ((ch :: tl) :: rest) =
        List.replicate k '/' ++ ch :: tl2 := by rw [hjoin]
    have hsl : normSlashes (List.replicate k '/' ++ joinSlash ((ch :: tl) :: rest)) = k := by
      rw [hq]
      unfold normSlashes
      rcases hk with rfl | rfl
      · rw [if_pos (by rfl), if_neg ?_]
        intro ⟨h2, _⟩
        have : ch = '/' := by simpa using h2
        exact hch this
      · rw [if_pos (by rfl), if_pos ?_]
        constructor
        · rfl
        · intro h3
          simp only [List.replicate, List.cons_append, List.nil_append] at h3
          have : ch = '/' := by simpa using h3
          exact hch this
    have hsplit : splitSlash (List.replicate k '/' ++ joinSlash ((ch :: tl) :: rest)) =
        List.replicate k [] ++ ((ch :: tl) :: rest) := by
      rw [splitSlash_replicate, splitSlash_join ((ch :: tl) :: rest) (by simp)
        (fun s hs => (hc s hs).2.2.2)]
    have hproc : processComps k []
        (splitSlash (List.replicate k '/' ++ joinSlash ((ch :: tl) :: rest))) =
        (ch :: tl) :: rest := by
      rw [hsplit, processComps_skip_replicate, processComps_clean k ((ch :: tl) :: rest) []
        (fun x hx => ⟨(hc x hx).1, (hc x hx).2.1, (hc x hx).2.2.1⟩)]
      simp
    have hne : List.replicate k '/' ++ joinSlash ((ch :: tl) :: rest) ≠ [] := by
      rcases hk with rfl | rfl <;> simp [List.replicate]
    unfold normpathL
    rw [if_neg hne, hsl, hproc, if_neg hne]

/-- normpath is idempotent on absolute paths. -/
theorem normpathL_idem (p : List Char) (h : isabsL p = true) :
    normpathL (normpathL p) = normpathL p := by
  obtain ⟨k, nc, hk, hc, hform⟩ := normpathL_form p h
  rw [hform, normpathL_render k hk nc hc]

/-- normpath preserves absoluteness. -/
theorem normpathL_isabs (p : List Char) (h : isabsL p = true) :
    isabsL (normpathL p) = true := by
  obtain ⟨k, nc, hk, hform⟩ := normpathL_form p h
  rw [hform.2]
  rcases hk with rfl | rfl <;> rfl

/-- The segments of a normalized absolute path contain no dot and no
dotdot entries. -/
theorem normpathL_noDots (p : List Char) (h : isabsL p = true) :
    ∀ s ∈ splitSlash (normpathL p), s ≠ ['.'] ∧ s ≠ ['.', '.'] := by
  obtain ⟨k, nc, hk, hc, hform⟩ := normpathL_form p h
  rw [hform]
  cases nc with
  | nil =>
    intro s hs
    rcases hk with rfl | rfl <;> simp_all [List.replicate, splitSlash_slash, splitSlash]
  | cons c rest =>
    obtain ⟨hcne, _, _, hcsl⟩ := hc c (List.mem_cons_self c rest)
    rw [splitSlash_replicate, splitSlash_join (c :: rest) (by simp)
      (fun s hs => (hc s hs).2.2.2)]
    intro s hs
    rcases List.mem_append.mp hs with h1 | h2
    · have : s = [] := List.eq_of_mem_replicate h1
      subst this
      exact ⟨by simp, by simp⟩
    · exact ⟨(hc s h2).2.1, (hc s h2).2.2.1⟩

/-- The strip-from-the-end pattern used by dirname keeps an initial
segment of its argument. -/
theorem reverse_dropWhile_front (l : List Char) (q : Char → Bool) :
    ∃ suf, l = (l.reverse.dropWhile q).reverse ++ suf := by
  refine ⟨(l.reverse.takeWhile q).reverse, ?_⟩
  conv_lhs => rw [← l.reverse_reverse, ← List.takeWhile_append_dropWhile q l.reverse]
  rw [List.reverse_append]

/-- A nonempty initial segment starts with the same character. -/
theorem front_take_one (p pre suf : List Char) (c : Char) (hp : p = pre ++ suf)
    (hc : p.take 1 = [c]) (hne : pre ≠ []) : pre.take 1 = [c] := by
  cases pre with
  | nil => exact absurd rfl hne
  | cons a rest =>
    rw [hp] at hc
    have : a = c := by simpa using hc
    simp [this]

/-- Zeta-expanded form of dirnameL. -/
theorem dirnameL_eq (p : List Char) :
    dirnameL p =
      if (p.reverse.dropWhile (fun c => c ≠ '/')).reverse ≠ [] ∧
          (p.reverse.dropWhile (fun c => c ≠ '/')).reverse.any (fun c => c ≠ '/') then
        ((p.reverse.dropWhile (fun c => c ≠ '/')).reverse.reverse.dropWhile
          (fun c => c = '/')).reverse
      else (p.reverse.dropWhile (fun c => c ≠ '/')).reverse := rfl

/-- The dirname of an absolute path is a nonempty absolute path. -/
theorem dirnameL_abs (p : List Char) (h : isabsL p = true) :
    isabsL (dirnameL p) = true ∧ dirnameL p ≠ [] := by
  have h1 : p.take 1 = ['/'] := by simpa [isabsL] using h
  rw [dirnameL_eq]
  set head := (p.reverse.dropWhile (fun c => c ≠ '/')).reverse with hhead
  have hpre : ∃ suf, p = head ++ suf := reverse_dropWhile_front p _
  have hheadne : head ≠ [] := by
    intro he
    have hdw : p.reverse.dropWhile (fun c => c ≠ '/') = [] := by
      have h2 := congrArg List.reverse he
      simpa [hhead] using h2
    have hall := List.dropWhile_eq_nil_iff.mp hdw
    cases p with
    | nil => simp at h1
    | cons a rest =>
      have ha : a = '/' := by simpa using h1
      subst ha
      have h3 := hall '/' (by simp)
      simp at h3
  obtain ⟨suf, hsuf⟩ := hpre
  have hht : head.take 1 = ['/'] := front_take_one p head suf '/' hsuf h1 hheadne
  by_cases hb : head ≠ [] ∧ head.any (fun c => c ≠ '/')
  · rw [if_pos hb]
    have hrpre : ∃ suf2, head = (head.reverse.dropWhile (fun c => c = '/')).reverse ++ suf2 :=
      reverse_dropWhile_front head _
    obtain ⟨suf2, hsuf2⟩ := hrpre
    have hrne : (head.reverse.dropWhile (fun c => c = '/')).reverse ≠ [] := by
      intro he
      have hdw : head.reverse.dropWhile (fun c => c = '/') = [] := by
        have h2 := congrArg List.reverse he
        simpa using h2
      have hall := List.dropWhile_eq_nil_iff.mp hdw
      obtain ⟨x, hxmem, hxne⟩ := List.any_eq_true.mp hb.2
      have h3 := hall x (by simpa using hxmem)
      simp at h3 hxne
      exact hxne h3
    have hrt := front_take_one head _ suf2 '/' hsuf2 hht hrne
    exact ⟨by simpa [isabsL] using hrt, hrne⟩
  · rw [if_neg hb]
    exact ⟨by simpa [isabsL] using hht, hheadne⟩

/-- Joining anything onto an absolute base yields an absolute path. -/
theorem pjoinL_abs (a b : List Char) (ha : isabsL a = true) :
    isabsL (pjoinL a b) = true := by
  have h1 : a.take 1 = ['/'] := by simpa [isabsL] using ha
  cases a with
  | nil => simp at h1
  | cons c rest =>
    have hc : c = '/' := by simpa using h1
    subst hc
    unfold pjoinL
    by_cases hb : isabsL b = true
    · rw [if_pos hb]
      exact hb
    · rw [if_neg hb]
      by_cases h2 : ('/' :: rest : List Char) = [] ∨ ('/' :: rest).getLast? = some '/'
      · rw [if_pos h2]
        simp [isabsL]
      · rw [if_neg h2]
        simp [isabsL]

/-- For a relative target text the code's next-path computation is
exactly: join onto the directory containing the current link, then
normalize.  The extra abspath pass the code performs afterwards is the
identity because the joined path is absolute and normpath is
idempotent on absolute paths. -/
theorem nextPath_rel (cwd cur t : String) (hrel : isabs t = false) (hcur : isabs cur = true) :
    nextPath cwd cur t = normpath (pjoin (dirname cur) t) := by
  have hd := dirnameL_abs cur.toList hcur
  have hj : isabsL (pjoinL (dirnameL cur.toList) t.toList) = true :=
    pjoinL_abs _ _ hd.1
  have hn : isabsL (normpathL (pjoinL (dirnameL cur.toList) t.toList)) = true :=
    normpathL_isabs _ hj
  unfold nextPath
  rw [if_pos (show ¬ (isabs t = true) by simp [hrel])]
  show (abspathL cwd.toList (normpathL (pjoinL (dirnameL cur.toList) t.toList))).asString =
    (normpathL (pjoinL (dirnameL cur.toList) t.toList)).asString
  unfold abspathL
  rw [if_pos hn, normpathL_idem _ hj]

/-- When the starting path is a link, resolve_symlink returns the
record of the loop run. -/
theorem resolve_symlink_islink (fs : FS) (cwd s : String) (m : Nat)
    (h : fs.islink (abspath cwd s) = true) :
    resolve_symlink fs cwd s m =
      .ok (followLoop fs cwd (abspath cwd s) m (abspath cwd s) []) := by
  simp [resolve_symlink, h]

/-- When the starting path is a link, the wrapper passes the loop
record through untouched. -/
theorem resolve_checked_islink (fs : FS) (cwd s : String) (m : Nat)
    (h : fs.islink (abspath cwd s) = true) :
    resolve_checked fs cwd s m =
      followLoop fs cwd (abspath cwd s) m (abspath cwd s) [] := by
  simp [resolve_checked, resolve_symlink_islink fs cwd s m h]

/-- C1, counterexample.  For the direct two-cycle /a -> /b -> /a with
a hop budget of 3, the code returns status loop, but its recorded
chain is [/b, /a, /b]: the repeated path is appended before the repeat
is detected, so the chain is not the duplicate-free [/b, /a] that the
claim asserts. -/
theorem C1_counterexample :
    resolve_symlink fsTwoCycle "/" "/a" 3 = .ok
      { link := "/a", status := "loop", resolved := some "/b"
        chain := ["/b", "/a", "/b"], error := none } ∧
    (resolve_checked fsTwoCycle "/" "/a" 3).chain ≠ ["/b", "/a"] ∧
    ¬ (resolve_checked fsTwoCycle "/" "/a" 3).chain.Nodup := by
  refine ⟨rfl, ?_, ?_⟩ <;> decide

/-- C1, amended.  For a direct two-cycle a -> b -> a of canonical
absolute links and a hop budget of at least 3, resolve returns status
loop, and the recorded chain is [b, a, b]: the paths visited in order,
with the repeated path b appended once more at the moment the repeat
is detected (the duplicate-free prefix [b, a] is exactly the visited
set the detection consulted). -/
theorem C1_loop_chain (fs : FS) (cwd a b : String) (m : Nat)
    (ha1 : isabs a = true) (ha2 : normpath a = a)
    (hb1 : isabs b = true) (hb2 : normpath b = b)
    (hne : a ≠ b)
    (hla : fs.islink a = true) (hlb : fs.islink b = true)
    (hra : fs.readlink a = .ok b) (hrb : fs.readlink b = .ok a)
    (hm : 3 ≤ m) :
    resolve_symlink fs cwd a m = .ok
      { link := a, status := "loop", resolved := some b
        chain := [b, a, b], error := none } := by
  obtain ⟨k, rfl⟩ : ∃ k, m = k + 1 + 1 + 1 := ⟨m - 3, by omega⟩
  have hA : abspath cwd a = a := abspath_good cwd a ha1 ha2
  have hnb : nextPath cwd a b = b := nextPath_good cwd a b hb1 hb2
  have hna : nextPath cwd b a = a := nextPath_good cwd b a ha1 ha2
  rw [resolve_symlink_islink fs cwd a (k + 1 + 1 + 1) (by rw [hA]; exact hla), hA]
  rw [followLoop_cont fs cwd a (k + 1 + 1) a [] b hra (by rw [hnb]; simp)
    (by rw [hnb]; exact hlb), hnb]
  simp only [List.nil_append]
  rw [followLoop_cont fs cwd a (k + 1) b [b] a hrb
    (by rw [hna]; intro hmem; exact hne (by simpa using hmem))
    (by rw [hna]; exact hla), hna]
  simp only [List.cons_append, List.nil_append]
  rw [followLoop_mem fs cwd a k a [b, a] b hra (by rw [hnb]; simp), hnb]
  simp

/-- C1, witness for the amended statement at the concrete two-cycle
filesystem. -/
theorem C1_loop_chain_witness :
    resolve_symlink fsTwoCycle "/" "/a" 3 = .ok
      { link := "/a", status := "loop", resolved := some "/b"
        chain := ["/b", "/a", "/b"], error := none } :=
  C1_loop_chain fsTwoCycle "/" "/a" "/b" 3 (by decide) (by decide) (by decide)
    (by decide) (by decide) (by decide) (by decide) (by decide) (by decide)
    (by decide)

/-- C2, counterexample.  For the existing non-link path /t the code
does not return a ReadError Resolution record: it raises ValueError
(modelled as Except.error), so no record reaches the caller from
resolve_symlink itself. -/
theorem C2_counterexample :
    resolve_symlink fsHop "/" "/t" 200 = .error "/t is not a symbolic link" := rfl

/-- C2, amended.  For a starting path that is not a symbolic link,
resolve_symlink raises ValueError with the message "<path> is not a
symbolic link" instead of returning a record; its callers catch the
exception and report a record with status "error" (the code has no
ReadError status), resolved set to None and an empty chain. -/
theorem C2_nonlink_raises (fs : FS) (cwd p : String) (m : Nat)
    (h : fs.islink (abspath cwd p) = false) :
    resolve_symlink fs cwd p m = .error (abspath cwd p ++ " is not a symbolic link") ∧
    resolve_checked fs cwd p m =
      { link := abspath cwd p, status := "error", resolved := none
        chain := [], error := some (abspath cwd p ++ " is not a symbolic link") } := by
  have h1 : resolve_symlink fs cwd p m =
      .error (abspath cwd p ++ " is not a symbolic link") := by
    simp [resolve_symlink, h]
  exact ⟨h1, by simp [resolve_checked, h1]⟩

/-- C2, witness for the amended statement at the concrete filesystem
where /t exists but is a regular entry. -/
theorem C2_nonlink_raises_witness :
    resolve_symlink fsHop "/" "/t" 200 = .error ("/t" ++ " is not a symbolic link") ∧
    resolve_checked fsHop "/" "/t" 200 =
      { link := "/t", status := "error", resolved := none
        chain := [], error := some ("/t" ++ " is not a symbolic link") } := by
  have h := C2_nonlink_raises fsHop "/" "/t" 200 (by decide)
  have ha : abspath "/" "/t" = "/t" := by decide
  rw [ha] at h
  exact h

/-- C3, counterexample.  A refused readlink yields status "broken" --
the very same status token the code uses for a dangling chain end --
not a distinct ReadError status: the two outcomes are distinguishable
only by the presence of the error detail. -/
theorem C3_counterexample :
    resolve_symlink fsReadErr "/" "/a" 5 = .ok
      { link := "/a", status := "broken", resolved := some "/a"
        chain := [], error := some "Permission denied" } ∧
    resolve_symlink fsHop "/" "/d" 200 = .ok
      { link := "/d", status := "broken", resolved := some "/missing"
        chain := ["/missing"], error := none } := ⟨rfl, rfl⟩

/-- C3, amended.  Whenever reading the immediate link target of the
current path fails during resolution, the loop stops and returns a
record whose status is "broken" -- the same token used for dangling
ends, not a distinct ReadError status -- with the failure detail under
the error key; at the first hop this is the record resolve_symlink
returns. -/
theorem C3_readerror_broken (fs : FS) (cwd : String) :
    (∀ link n cur vis e, fs.readlink cur = .error e →
      followLoop fs cwd link (n + 1) cur vis =
        { link := link, status := "broken", resolved := some cur
          chain := vis, error := some e }) ∧
    (∀ s m e, fs.islink (abspath cwd s) = true →
      fs.readlink (abspath cwd s) = .error e → 1 ≤ m →
      resolve_symlink fs cwd s m = .ok
        { link := abspath cwd s, status := "broken", resolved := some (abspath cwd s)
          chain := [], error := some e }) := by
  constructor
  · intro link n cur vis e h
    exact followLoop_err fs cwd link n cur vis e h
  · intro s m e hl hr hm
    obtain ⟨k, rfl⟩ : ∃ k, m = k + 1 := ⟨m - 1, by omega⟩
    rw [resolve_symlink_islink fs cwd s (k + 1) hl,
      followLoop_err fs cwd (abspath cwd s) k (abspath cwd s) [] e hr]

/-- C3, witness for the amended statement at the concrete filesystem
whose readlink call is refused. -/
theorem C3_readerror_broken_witness :
    followLoop fsReadErr "/" "/a" 4 "/a" [] =
      { link := "/a", status := "broken", resolved := some "/a"
        chain := [], error := some "Permission denied" } ∧
    resolve_symlink fsReadErr "/" "/a" 5 = .ok
      { link := abspath "/" "/a", status := "broken", resolved := some (abspath "/" "/a")
        chain := [], error := some "Permission denied" } :=
  ⟨(C3_readerror_broken fsReadErr "/").1 "/a" 3 "/a" [] "Permission denied" (by decide),
   (C3_readerror_broken fsReadErr "/").2 "/a" 5 "Permission denied" (by decide)
     (by decide) (by decide)⟩

/-- C4.  For a cycle-free chain of N successive symlinks (the start
plus the ls further links, so N = ls.length + 1) ending at an existing
non-link entry t, resolve returns status maxdepth when the budget is
below N and the full live resolution when the budget is at least N;
and, for any filesystem and start whatsoever, raising the budget never
changes a result whose status is not maxdepth -- the ok, broken and
loop outcomes are preserved verbatim. -/
theorem C4_maxhops_monotone :
    (∀ (fs : FS) (cwd s : String) (ls : List String) (t : String) (m : Nat),
      LinkChain fs s ls t → fs.islink t = false → fs.pathExists t = true →
      (ls ++ [t]).Nodup → isabs s = true → normpath s = s →
      ((m < ls.length + 1 → (resolve_checked fs cwd s m).status = "maxdepth") ∧
       (ls.length + 1 ≤ m →
        resolve_symlink fs cwd s m = .ok
          { link := s, status := "ok", resolved := some t
            chain := ls ++ [t], error := none }))) ∧
    (∀ (fs : FS) (cwd s : String) (m m' : Nat) (r : Resolution), m ≤ m' →
      resolve_symlink fs cwd s m = .ok r → r.status ≠ "maxdepth" →
      resolve_symlink fs cwd s m' = .ok r) := by
  constructor
  · intro fs cwd s ls t m hch ht hex hnd hs1 hs2
    have hA : abspath cwd s = s := abspath_good cwd s hs1 hs2
    have hl : fs.islink (abspath cwd s) = true := by rw [hA]; exact hch.islink_head
    constructor
    · intro hlt
      rw [resolve_checked_islink fs cwd s m hl, hA]
      exact followLoop_chain_maxdepth fs cwd s m ls s t []
        hch (by simpa using hnd.of_append_left) (by omega)
    · intro hge
      rw [resolve_symlink_islink fs cwd s m hl, hA]
      rw [followLoop_chain_live fs cwd s ls s t [] hch ht hex (by simpa using hnd) m hge]
      simp
  · intro fs cwd s m m' r hle hres hst
    by_cases hl : fs.islink (abspath cwd s) = true
    · rw [resolve_symlink_islink fs cwd s m hl] at hres
      have hr : followLoop fs cwd (abspath cwd s) m (abspath cwd s) [] = r :=
        Except.ok.inj hres
      rw [resolve_symlink_islink fs cwd s m' hl,
        followLoop_mono fs cwd (abspath cwd s) m m' (abspath cwd s) [] hle
          (by rw [hr]; exact hst), hr]
    · replace hl : fs.islink (abspath cwd s) = false := by simpa using hl
      rw [(C2_nonlink_raises fs cwd s m hl).1] at hres
      exact absurd hres (by simp)

/-- C4, witness at the concrete two-link chain /l1 -> /l2 -> /t: a
budget of 1 exhausts, a budget of 2 resolves, and raising the budget
to 7 returns the identical record. -/
theorem C4_maxhops_monotone_witness :
    (resolve_checked fsChain2 "/" "/l1" 1).status = "maxdepth" ∧
    resolve_symlink fsChain2 "/" "/l1" 2 = .ok
      { link := "/l1", status := "ok", resolved := some "/t"
        chain := ["/l2", "/t"], error := none } ∧
    resolve_symlink fsChain2 "/" "/l1" 7 = .ok
      { link := "/l1", status := "ok", resolved := some "/t"
        chain := ["/l2", "/t"], error := none } := by
  have hch : LinkChain fsChain2 "/l1" ["/l2"] "/t" :=
    LinkChain.cons _ _ _ _ (by decide) (by decide) (by decide) (by decide)
      (LinkChain.last _ _ (by decide) (by decide) (by decide) (by decide))
  have h1 := (C4_maxhops_monotone.1 fsChain2 "/" "/l1" ["/l2"] "/t" 1 hch (by decide)
    (by decide) (by decide) (by decide) (by decide)).1 (by decide)
  have h2 := (C4_maxhops_monotone.1 fsChain2 "/" "/l1" ["/l2"] "/t" 2 hch (by decide)
    (by decide) (by decide) (by decide) (by decide)).2 (by decide)
  have h3 := C4_maxhops_monotone.2 fsChain2 "/" "/l1" 2 7
    { link := "/l1", status := "ok", resolved := some "/t"
      chain := ["/l2", "/t"], error := none } (by omega) (by simpa using h2) (by decide)
  exact ⟨h1, by simpa using h2, by simpa using h3⟩

/-- C5.  For a link a whose canonical absolute target b is not itself
a symlink, and any positive hop budget: if b exists the resolution is
status ok with the one-hop chain [b] (whose entry is not a symlink)
and resolved target b; if b does not exist the resolution is status
broken with resolved target b, the dangling path itself. -/
theorem C5_single_hop (fs : FS) (cwd a b : String) (m : Nat)
    (ha1 : isabs a = true) (ha2 : normpath a = a)
    (hb1 : isabs b = true) (hb2 : normpath b = b)
    (hla : fs.islink a = true) (hra : fs.readlink a = .ok b)
    (hlb : fs.islink b = false) (hm : 1 ≤ m) :
    (fs.pathExists b = true →
      resolve_symlink fs cwd a m = .ok
        { link := a, status := "ok", resolved := some b
          chain := [b], error := none }) ∧
    (fs.pathExists b = false →
      resolve_symlink fs cwd a m = .ok
        { link := a, status := "broken", resolved := some b
          chain := [b], error := none }) := by
  obtain ⟨k, rfl⟩ : ∃ k, m = k + 1 := ⟨m - 1, by omega⟩
  have hA : abspath cwd a = a := abspath_good cwd a ha1 ha2
  have hB : abspath cwd b = b := abspath_good cwd b hb1 hb2
  have hnb : nextPath cwd a b = b := nextPath_good cwd a b hb1 hb2
  constructor
  · intro hex
    rw [resolve_symlink_islink fs cwd a (k + 1) (by rw [hA]; exact hla), hA,
      followLoop_live fs cwd a k a [] b hra (by rw [hnb]; simp)
        (by rw [hnb]; exact hlb) (by rw [hnb]; exact hex), hnb, hB]
    simp
  · intro hex
    rw [resolve_symlink_islink fs cwd a (k + 1) (by rw [hA]; exact hla), hA,
      followLoop_dangling fs cwd a k a [] b hra (by rw [hnb]; simp)
        (by rw [hnb]; exact hlb) (by rw [hnb]; exact hex), hnb]
    simp

/-- C5, witness: the live single hop /a -> /t and the dangling single
hop /d -> /missing in the concrete filesystem. -/
theorem C5_single_hop_witness :
    resolve_symlink fsHop "/" "/a" 200 = .ok
      { link := "/a", status := "ok", resolved := some "/t"
        chain := ["/t"], error := none } ∧
    resolve_symlink fsHop "/" "/d" 200 = .ok
      { link := "/d", status := "broken", resolved := some "/missing"
        chain := ["/missing"], error := none } :=
  ⟨(C5_single_hop fsHop "/" "/a" "/t" 200 (by decide) (by decide) (by decide)
      (by decide) (by decide) (by decide) (by decide) (by decide)).1 (by decide),
   (C5_single_hop fsHop "/" "/d" "/missing" 200 (by decide) (by decide) (by decide)
      (by decide) (by decide) (by decide) (by decide) (by decide)).2 (by decide)⟩

/-- C6.  The next-path computation is pure path-text arithmetic: an
absolute target text is returned as its normalized form; a relative
target text is joined onto the directory containing the current link
and normalized; a normalized absolute path is absolute and free of dot
and dotdot segments; and the link /a/b/link with raw target text ../c
normalizes to /a/c, not /a/b/c. -/
theorem C6_normalize (cwd cur t p : String) :
    (isabs t = true → nextPath cwd cur t = normpath t) ∧
    (isabs t = false → isabs cur = true →
      nextPath cwd cur t = normpath (pjoin (dirname cur) t)) ∧
    (isabs p = true →
      isabs (normpath p) = true ∧
      (splitSlash (normpath p).toList).all
        (fun s => !(s == ['.'] || s == ['.', '.'])) = true) ∧
    (nextPath "/" "/a/b/link" "../c" = "/a/c" ∧ ("/a/c" : String) ≠ "/a/b/c") := by
  refine ⟨?_, ?_, ?_, by decide, by decide⟩
  · intro h
    rw [nextPath_abs cwd cur t h]
    show (abspathL cwd.toList t.toList).asString = (normpathL t.toList).asString
    unfold abspathL
    rw [if_pos (show isabsL t.toList = true from h)]
  · intro h1 h2
    exact nextPath_rel cwd cur t h1 h2
  · intro h
    refine ⟨normpathL_isabs p.toList h, ?_⟩
    rw [List.all_eq_true]
    intro s hs
    have hs2 : s ∈ splitSlash (normpathL p.toList) := hs
    have hd := normpathL_noDots p.toList h s hs2
    simp only [Bool.not_eq_true', Bool.or_eq_false_iff, beq_eq_false_iff_ne]
    exact hd

/-- C6, witness at concrete paths: an absolute target, the relative
target ../c at /a/b/link, and the canonical form of /a/./b/../c. -/
theorem C6_normalize_witness :
    (nextPath "/w" "/x/link" "/q/../r" = normpath "/q/../r") ∧
    (nextPath "/w" "/a/b/link" "../c" = normpath (pjoin (dirname "/a/b/link") "../c")) ∧
    (isabs (normpath "/a/./b/../c") = true ∧
      (splitSlash (normpath "/a/./b/../c").toList).all
        (fun s => !(s == ['.'] || s == ['.', '.'])) = true) ∧
    (nextPath "/" "/a/b/link" "../c" = "/a/c" ∧ ("/a/c" : String) ≠ "/a/b/c") :=
  ⟨(C6_normalize "/w" "/x/link" "/q/../r" "/a/./b/../c").1 (by decide),
   (C6_normalize "/w" "/a/b/link" "../c" "/a/./b/../c").2.1 (by decide) (by decide),
   (C6_normalize "/w" "/x/link" "/q/../r" "/a/./b/../c").2.2.1 (by decide),
   (C6_normalize "/w" "/x/link" "/q/../r" "/a/./b/../c").2.2.2⟩

/-- C7, counterexample.  The chain does not always exclude the
starting link as an element: in the two-cycle /a -> /b -> /a resolved
from /a, the recorded chain [/b, /a, /b] contains the starting link /a
itself, reached again as a later hop. -/
theorem C7_counterexample :
    resolve_symlink fsTwoCycle "/" "/a" 5 = .ok
      { link := "/a", status := "loop", resolved := some "/b"
        chain := ["/b", "/a", "/b"], error := none } ∧
    "/a" ∈ (resolve_checked fsTwoCycle "/" "/a" 5).chain := by
  refine ⟨rfl, ?_⟩
  decide

/-- C7, amended.  The chain does not record the starting link as its
first entry: it begins one hop past the start, its first entry being
the normalized first target of the start, and every loop step only
ever appends hops at the end of the list already recorded, in
traversal order (the start can still reappear as a later hop when the
chain cycles back to it). -/
theorem C7_chain_first_hop (fs : FS) (cwd s tgt : String) (m : Nat)
    (hm : 1 ≤ m) (hl : fs.islink (abspath cwd s) = true)
    (hr : fs.readlink (abspath cwd s) = .ok tgt) :
    (∃ rest, (resolve_checked fs cwd s m).chain =
      nextPath cwd (abspath cwd s) tgt :: rest) ∧
    (∀ link n cur vis, ∃ tl, (followLoop fs cwd link n cur vis).chain = vis ++ tl) := by
  constructor
  · obtain ⟨k, rfl⟩ : ∃ k, m = k + 1 := ⟨m - 1, by omega⟩
    rw [resolve_checked_islink fs cwd s (k + 1) hl]
    have hmem : nextPath cwd (abspath cwd s) tgt ∉ ([] : List String) := by simp
    by_cases hlk : fs.islink (nextPath cwd (abspath cwd s) tgt) = true
    · rw [followLoop_cont fs cwd (abspath cwd s) k (abspath cwd s) [] tgt hr hmem hlk]
      obtain ⟨tl, htl, _⟩ := followLoop_chain_ext fs cwd (abspath cwd s) k
        (nextPath cwd (abspath cwd s) tgt) ([] ++ [nextPath cwd (abspath cwd s) tgt])
      exact ⟨tl, by rw [htl]; simp⟩
    · replace hlk : fs.islink (nextPath cwd (abspath cwd s) tgt) = false := by
        simpa using hlk
      by_cases hex : fs.pathExists (nextPath cwd (abspath cwd s) tgt) = true
      · rw [followLoop_live fs cwd (abspath cwd s) k (abspath cwd s) [] tgt hr hmem hlk hex]
        exact ⟨[], by simp⟩
      · replace hex : fs.pathExists (nextPath cwd (abspath cwd s) tgt) = false := by
          simpa using hex
        rw [followLoop_dangling fs cwd (abspath cwd s) k (abspath cwd s) [] tgt hr
          hmem hlk hex]
        exact ⟨[], by simp⟩
  · intro link n cur vis
    obtain ⟨tl, htl, _⟩ := followLoop_chain_ext fs cwd link n cur vis
    exact ⟨tl, htl⟩

/-- C7, witness at the concrete single-hop filesystem: the chain of
/a starts with the normalized first target of /a, and a loop run only
appends to the visited list it is given. -/
theorem C7_chain_first_hop_witness :
    (∃ rest, (resolve_checked fsHop "/" "/a" 200).chain =
      nextPath "/" (abspath "/" "/a") "/t" :: rest) ∧
    (∃ tl, (followLoop fsHop "/" "/a" 0 "/a" ["/x"]).chain = ["/x"] ++ tl) :=
  ⟨(C7_chain_first_hop fsHop "/" "/a" "/t" 200 (by decide) (by decide) (by decide)).1,
   (C7_chain_first_hop fsHop "/" "/a" "/t" 200 (by decide) (by decide) (by decide)).2
     "/a" 0 "/a" ["/x"]⟩

/-- C8, counterexample.  The resolved key is populated in every
outcome, not only for ok and broken: a loop outcome stores the
repeated path under resolved, and a maxdepth outcome stores the last
path the walk stood on. -/
theorem C8_counterexample :
    resolve_symlink fsTwoCycle "/" "/a" 4 = .ok
      { link := "/a", status := "loop", resolved := some "/b"
        chain := ["/b", "/a", "/b"], error := none } ∧
    (resolve_checked fsTwoCycle "/" "/a" 4).resolved ≠ none ∧
    (resolve_checked fsChain2 "/" "/l1" 1).status = "maxdepth" ∧
    (resolve_checked fsChain2 "/" "/l1" 1).resolved = some "/l2" := by
  refine ⟨rfl, ?_, ?_, ?_⟩ <;> decide

/-- C8, amended.  Every record returned by resolve_symlink carries a
populated resolved value; in the loop outcome it is the repeated path,
which is also the final chain entry, and in the maxdepth outcome it is
the last path followed -- the final chain entry, or the starting link
itself when the chain is empty. -/
theorem C8_resolved_populated (fs : FS) (cwd s : String) (m : Nat) (r : Resolution)
    (h : resolve_symlink fs cwd s m = .ok r) :
    (∃ v, r.resolved = some v) ∧
    (r.status = "loop" → r.chain.getLast? = r.resolved) ∧
    (r.status = "maxdepth" → r.resolved = some (r.chain.getLast?.getD r.link)) := by
  by_cases hl : fs.islink (abspath cwd s) = true
  · rw [resolve_symlink_islink fs cwd s m hl] at h
    have hr := Except.ok.inj h
    subst hr
    have hres := followLoop_resolved fs cwd (abspath cwd s) m (abspath cwd s) [] (by simp)
    have hlink := followLoop_link fs cwd (abspath cwd s) m (abspath cwd s) []
    refine ⟨hres.1, hres.2.1, ?_⟩
    intro hst
    rw [hlink]
    exact hres.2.2 hst
  · replace hl : fs.islink (abspath cwd s) = false := by simpa using hl
    rw [(C2_nonlink_raises fs cwd s m hl).1] at h
    exact absurd h (by simp)

/-- C8, witness for the amended statement at the concrete two-cycle
loop outcome. -/
theorem C8_resolved_populated_witness :
    (∃ v, (some "/b" : Option String) = some v) ∧
    (("loop" : String) = "loop" →
      (["/b", "/a", "/b"] : List String).getLast? = some "/b") ∧
    (("loop" : String) = "maxdepth" →
      (some "/b" : Option String) =
        some ((["/b", "/a", "/b"] : List String).getLast?.getD "/a")) :=
  C8_resolved_populated fsTwoCycle "/" "/a" 4
    { link := "/a", status := "loop", resolved := some "/b"
      chain := ["/b", "/a", "/b"], error := none } rfl

/-- C9.  Resolution is deterministic in the filesystem state: two
invocations of resolve_symlink on the same start with the same budget
against the same (unmutated) filesystem produce records that agree on
every field.  In this embedding the filesystem is an explicit argument
and the resolver is a pure function of it, so the two runs are equal
by determinism of evaluation. -/
theorem C9_idempotent (fs : FS) (cwd s : String) (m : Nat) (r1 r2 : Resolution)
    (h1 : resolve_symlink fs cwd s m = .ok r1)
    (h2 : resolve_symlink fs cwd s m = .ok r2) :
    r1.link = r2.link ∧ r1.status = r2.status ∧ r1.resolved = r2.resolved ∧
    r1.chain = r2.chain ∧ r1.error = r2.error := by
  rw [h1] at h2
  have h3 := Except.ok.inj h2
  subst h3
  exact ⟨rfl, rfl, rfl, rfl, rfl⟩

/-- C9, witness: the two identical runs on the concrete single-hop
link. -/
theorem C9_idempotent_witness :
    ("/a" : String) = "/a" ∧ ("ok" : String) = "ok" ∧
    (some "/t" : Option String) = some "/t" ∧
    (["/t"] : List String) = ["/t"] ∧ (none : Option String) = none :=
  C9_idempotent fsHop "/" "/a" 200
    { link := "/a", status := "ok", resolved := some "/t"
      chain := ["/t"], error := none }
    { link := "/a", status := "ok", resolved := some "/t"
      chain := ["/t"], error := none } rfl rfl

/-- C10, counterexample.  An iteration of the following loop does not
always append an entry to the chain: an iteration whose readlink call
fails returns with the chain exactly as it was -- here the very first
iteration runs and the final chain is empty. -/
theorem C10_counterexample :
    followLoop fsReadErr "/" "/a" 1 "/a" [] =
      { link := "/a", status := "broken", resolved := some "/a"
        chain := [], error := some "Permission denied" } ∧
    resolve_symlink fsReadErr "/" "/a" 3 = .ok
      { link := "/a", status := "broken", resolved := some "/a"
        chain := [], error := some "Permission denied" } := ⟨rfl, rfl⟩

/-- C10, amended.  The following loop runs at most max_follow
iterations; each iteration appends at most one entry to the chain
(exactly one when its readlink call succeeds, none when it fails), and
only ever appends at the end; hence the returned chain never has more
than max_follow entries. -/
theorem C10_chain_bounded (fs : FS) (cwd : String) :
    (∀ s m r, resolve_symlink fs cwd s m = .ok r → r.chain.length ≤ m) ∧
    (∀ link n cur vis, ∃ tl, (followLoop fs cwd link n cur vis).chain = vis ++ tl ∧
      tl.length ≤ n) := by
  constructor
  · intro s m r h
    by_cases hl : fs.islink (abspath cwd s) = true
    · rw [resolve_symlink_islink fs cwd s m hl] at h
      have hr := Except.ok.inj h
      obtain ⟨tl, htl, hlen⟩ := followLoop_chain_ext fs cwd (abspath cwd s) m
        (abspath cwd s) []
      rw [← hr, htl]
      simpa using hlen
    · replace hl : fs.islink (abspath cwd s) = false := by simpa using hl
      rw [(C2_nonlink_raises fs cwd s m hl).1] at h
      exact absurd h (by simp)
  · intro link n cur vis
    exact followLoop_chain_ext fs cwd link n cur vis

/-- C10, witness: the one-hop resolution has a one-entry chain within
the budget 200, and an exhausted loop leaves the given visited list
unchanged. -/
theorem C10_chain_bounded_witness :
    (["/t"] : List String).length ≤ 200 ∧
    (∃ tl, (followLoop fsHop "/" "/a" 0 "/a" ["/y"]).chain = ["/y"] ++ tl ∧
      tl.length ≤ 0) :=
  ⟨(C10_chain_bounded fsHop "/").1 "/a" 200
      { link := "/a", status := "ok", resolved := some "/t"
        chain := ["/t"], error := none } rfl,
   (C10_chain_bounded fsHop "/").2 "/a" 0 "/a" ["/y"]⟩

end SymlinkResolver
